import Mathlib

/-!
The cloud function `createNewLowerQualityImage` of firebase_image_processor:
a shallow embedding of `src/index.js`.

* The POSIX flavour of the Node.js `path` module (`dirname`, `basename`,
  `normalize`, `join`), which the handler uses to compute every path, is
  transcribed loop by loop from the `lib/path.js` of Node.js.  JavaScript strings are
  lists of characters; only `/` and `.` are ever inspected.
* The handler itself is a function from the request, the outcomes of the
  external calls (mkdirp, download, ImageMagick, upload, unlink, URL signing)
  and the local file system to the list of effects it performs, in order, and
  the local file system it leaves behind.
-/

namespace ImageProcessor

/-! ## JavaScript string primitives -/

/-- JavaScript `s.slice(a, b)` for `0 ≤ a` and `0 ≤ b`: the characters at
indices `a, ..., b - 1`. -/
def slice (s : List Char) (a b : Nat) : List Char := (s.take b).drop a

/-- JavaScript `s.charCodeAt(i)`; `none` stands for `NaN` (index out of range). -/
def charAt (s : List Char) (i : Nat) : Option Char := s.get? i

/-- Scan of `s.lastIndexOf(c)`: the indices `n - 1, ..., 0` are inspected in
that order; `-1` when `c` does not occur. -/
def lastIndexOfFrom (s : List Char) (c : Char) : Nat → Int
  | 0 => -1
  | n + 1 => if charAt s n = some c then (n : Int) else lastIndexOfFrom s c n

/-- JavaScript `s.lastIndexOf(c)` for a one-character needle. -/
def lastIndexOf (s : List Char) (c : Char) : Int := lastIndexOfFrom s c s.length

/-! ## Node.js `path` (POSIX) -/

/-- The loop of `path.dirname`: `for (i = path.length - 1; i >= 1; --i)`.
The first argument is the current `i`; the result is `end` (`none` is `-1`). -/
def dirnameLoop (path : List Char) : Nat → Bool → Option Nat
  | 0, _ => none
  | i + 1, matchedSlash =>
    if charAt path (i + 1) = some '/' then
      if !matchedSlash then some (i + 1) else dirnameLoop path i matchedSlash
    else dirnameLoop path i false

/-- The function `posix.dirname` on character lists. -/
def dirnameChars (path : List Char) : List Char :=
  if path.length = 0 then ['.'] else
  let hasRoot : Bool := charAt path 0 = some '/'
  match dirnameLoop path (path.length - 1) true with
  | none => if hasRoot then ['/'] else ['.']
  | some e => if hasRoot ∧ e = 1 then ['/', '/'] else slice path 0 e

/-- The variables `start`, `end` and `matchedSlash` of `path.basename`
(`end = none` is `-1`). -/
structure BasenameState where
  start : Nat
  end_ : Option Nat
  matchedSlash : Bool
  deriving DecidableEq, Repr

/-- The loop of `path.basename` (no suffix argument):
`for (i = path.length - 1; i >= 0; --i)`.  The first argument is `i + 1`. -/
def basenameLoop (path : List Char) : Nat → BasenameState → BasenameState
  | 0, st => st
  | i + 1, st =>
    if charAt path i = some '/' then
      if !st.matchedSlash then { st with start := i + 1 }
      else basenameLoop path i st
    else if st.end_ = none then
      basenameLoop path i { st with matchedSlash := false, end_ := some (i + 1) }
    else basenameLoop path i st

/-- The function `posix.basename(path)` on character lists. -/
def basenameChars (path : List Char) : List Char :=
  let st := basenameLoop path path.length ⟨0, none, true⟩
  match st.end_ with
  | none => []
  | some e => slice path st.start e

/-- The variables of `normalizeString`. -/
structure NormState where
  res : List Char
  lastSegmentLength : Int
  lastSlash : Int
  dots : Int
  code : Char
  deriving DecidableEq, Repr

/-- One pass through the body of the loop of `normalizeString`, after `code`
has been set for index `i`; every `continue` and the normal end of the body
lead to the same place, the increment of `i`. -/
def normalizeBody (path : List Char) (allowAboveRoot : Bool) (i : Nat)
    (st : NormState) : NormState :=
  if st.code = '/' then
    if st.lastSlash = (i : Int) - 1 ∨ st.dots = 1 then
      { st with lastSlash := i, dots := 0 }
    else if st.dots = 2 then
      let aboveRoot (st : NormState) : NormState :=
        if allowAboveRoot then
          { st with
            res := if st.res.length > 0 then st.res ++ ['/', '.', '.'] else ['.', '.'],
            lastSegmentLength := 2, lastSlash := i, dots := 0 }
        else { st with lastSlash := i, dots := 0 }
      if st.res.length < 2 ∨ st.lastSegmentLength ≠ 2 ∨
          charAt st.res (st.res.length - 1) ≠ some '.' ∨
          charAt st.res (st.res.length - 2) ≠ some '.' then
        if st.res.length > 2 then
          let lastSlashIndex := lastIndexOf st.res '/'
          if lastSlashIndex = -1 then
            { st with res := [], lastSegmentLength := 0, lastSlash := i, dots := 0 }
          else
            let res := slice st.res 0 lastSlashIndex.toNat
            { st with
              res := res,
              lastSegmentLength := (res.length : Int) - 1 - lastIndexOf res '/',
              lastSlash := i, dots := 0 }
        else if st.res.length ≠ 0 then
          { st with res := [], lastSegmentLength := 0, lastSlash := i, dots := 0 }
        else aboveRoot st
      else aboveRoot st
    else
      let seg := slice path (st.lastSlash + 1).toNat i
      { st with
        res := if st.res.length > 0 then st.res ++ '/' :: seg else seg,
        lastSegmentLength := (i : Int) - st.lastSlash - 1,
        lastSlash := i, dots := 0 }
  else if st.code = '.' ∧ st.dots ≠ -1 then
    { st with dots := st.dots + 1 }
  else
    { st with dots := -1 }

/-- The loop of `normalizeString`: `for (i = 0; i <= path.length; ++i)`.  The
first argument counts the iterations that remain (`path.length + 1 - i`). -/
def normalizeLoop (path : List Char) (allowAboveRoot : Bool) :
    Nat → Nat → NormState → List Char
  | 0, _, st => st.res
  | fuel + 1, i, st =>
    if i < path.length then
      normalizeLoop path allowAboveRoot fuel (i + 1)
        (normalizeBody path allowAboveRoot i { st with code := path.getD i '/' })
    else if st.code = '/' then st.res
    else
      normalizeLoop path allowAboveRoot fuel (i + 1)
        (normalizeBody path allowAboveRoot i { st with code := '/' })

/-- The function `normalizeString(path, allowAboveRoot, '/', isPosixPathSeparator)`. -/
def normalizeString (path : List Char) (allowAboveRoot : Bool) : List Char :=
  normalizeLoop path allowAboveRoot (path.length + 1) 0 ⟨[], 0, -1, 0, Char.ofNat 0⟩

/-- The function `posix.normalize` on character lists. -/
def normalizeChars (path : List Char) : List Char :=
  if path.length = 0 then ['.'] else
  let isAbsolute : Bool := charAt path 0 = some '/'
  let trailingSeparator : Bool := charAt path (path.length - 1) = some '/'
  let path := normalizeString path (!isAbsolute)
  if path.length = 0 then
    if isAbsolute then ['/'] else if trailingSeparator then ['.', '/'] else ['.']
  else
    let path := if trailingSeparator then path ++ ['/'] else path
    if isAbsolute then '/' :: path else path

/-- The loop of `posix.join` that builds `joined` (`none` is `undefined`). -/
def joinLoop : List (List Char) → Option (List Char) → Option (List Char)
  | [], joined => joined
  | arg :: args, joined =>
    if arg.length > 0 then
      match joined with
      | none => joinLoop args (some arg)
      | some j => joinLoop args (some (j ++ '/' :: arg))
    else joinLoop args joined

/-- The function `posix.join(...args)` on character lists. -/
def joinChars (args : List (List Char)) : List Char :=
  if args.length = 0 then ['.'] else
  match joinLoop args none with
  | none => ['.']
  | some joined => normalizeChars joined

/-- Node.js `path.dirname(path)`. -/
def dirname (path : String) : String := ⟨dirnameChars path.data⟩

/-- Node.js `path.basename(path)`. -/
def basename (path : String) : String := ⟨basenameChars path.data⟩

/-- Node.js `path.normalize(path)`. -/
def normalize (path : String) : String := ⟨normalizeChars path.data⟩

/-- Node.js `path.join(a, b)`. -/
def join (a b : String) : String := ⟨joinChars [a.data, b.data]⟩

/-! ## The handler `createNewLowerQualityImage` -/

/-- A JavaScript value that can occur in the `convert` array: a query
parameter (a string) or one of the numeric defaults. -/
inductive JSValue where
  | str (s : String)
  | num (n : Nat)
  deriving DecidableEq, Repr

/-- JavaScript string conversion, as performed by a template literal. -/
def JSValue.toStr : JSValue → String
  | .str s => s
  | .num n => Nat.repr n

/-- JavaScript `param || dflt` for a query parameter: `undefined` and the
empty string are falsy. -/
def orDefault (param : Option String) (dflt : Nat) : JSValue :=
  match param with
  | none => .num dflt
  | some s => if s = "" then .num dflt else .str s

/-- The query of the request: `req.query.filename`, `req.query.quality` and
`req.query.scale` (`none` is `undefined`). -/
structure Query where
  filename : Option String
  quality : Option String
  scale : Option String
  deriving DecidableEq, Repr

/-- What the handler sends: `res.status(_).json({ message, statusCode })` or
`res.status(_).send(text)`. -/
inductive Body where
  | json (message : String) (statusCode : Nat)
  | text (s : String)
  deriving DecidableEq, Repr

/-- A response: status code and body. -/
structure Response where
  status : Nat
  body : Body
  deriving DecidableEq, Repr

/-- The calls the handler makes on the outside world.  Every storage call is
on the bucket `bucketName`; both `getSignedUrl` calls carry the same
`config` (`action: 'read'`, `expires: '03-01-2500'`). -/
inductive Effect where
  | mkdirp (dir : String)
  | download (object destination : String)
  | spawn (command : String) (args : List JSValue)
  | upload (localPath destination : String)
  | unlinkSync (path : String)
  | getSignedUrl (object : String)
  | respond (status : Nat) (body : Body)
  deriving DecidableEq, Repr

/-- The outside world of one request: `os.tmpdir()` and the outcome of each
external call (`true`: the promise resolves, or the synchronous call returns;
`false`: it rejects, or throws).  `getSignedUrl object = some url` means the
promise resolves to the array `[url]`. -/
structure Externals where
  tmpdir : String
  mkdirp : Bool
  download : Bool
  spawn : Bool
  upload : Bool
  unlinkTempLocalFile : Bool
  unlinkTempLocalThumbFile : Bool
  getSignedUrl : String → Option String

/-- What one run of the handler leaves behind: the effects in the order they
were performed, and the files on the local file system. -/
structure Outcome where
  trace : List Effect
  files : List String
  deriving DecidableEq, Repr

/-- The response sent during a run, if any. -/
def Outcome.response (o : Outcome) : Option Response :=
  o.trace.findSome? fun e =>
    match e with
    | .respond status body => some ⟨status, body⟩
    | _ => none

/-- The constant `newFilePostfix`. -/
def newFilePostfix : String := "_modified"

/-- The constant `bucketName`. -/
def bucketName : String := "your_bucket"

/-- The constant `fileDir`. -/
def fileDir (filename : String) : String := dirname filename

/-- The constant `fileName`. -/
def fileName (filename : String) : String := basename filename

/-- The constant `newFilePath`. -/
def newFilePath (filename : String) : String :=
  normalize (join (fileDir filename) (fileName filename ++ newFilePostfix))

/-- The constant `tempLocalFile`. -/
def tempLocalFile (tmpdir filename : String) : String := join tmpdir filename

/-- The constant `tempLocalDir`. -/
def tempLocalDir (tmpdir filename : String) : String :=
  dirname (tempLocalFile tmpdir filename)

/-- The constant `tempLocalThumbFile`. -/
def tempLocalThumbFile (tmpdir filename : String) : String :=
  join tmpdir (newFilePath filename)

/-- The array `convert`, the ImageMagick command line. -/
def convert (tmpdir filename : String) (quality scale : JSValue) : List JSValue :=
  [.str (tempLocalFile tmpdir filename), .str "-quality", quality, .str "-scale",
   .str (scale.toStr ++ "%"), .str "-dither", .str "none", .str "-posterize",
   .str "100", .str "-strip", .str (tempLocalThumbFile tmpdir filename)]

/-- The handler.  A rejected promise or a thrown exception ends the chain: no
`.then` callback after it runs, and, there being no `.catch`, nothing else
does.  On the local file system a successful download creates its
destination, a successful `convert` creates its output file, a successful
`unlinkSync` removes its argument; a failed call leaves the files as they
were. -/
def createNewLowerQualityImage (ext : Externals) (req : Query)
    (files : List String) : Outcome :=
  let quality := orDefault req.quality 10
  let scale := orDefault req.scale 100
  match req.filename with
  | none => ⟨[.respond 409 (.json "File parameter not specified" 409)], files⟩
  | some filename =>
    if filename = "" then
      ⟨[.respond 409 (.json "File parameter not specified" 409)], files⟩
    else
    let newFilePath := newFilePath filename
    let tempLocalFile := tempLocalFile ext.tmpdir filename
    let tempLocalDir := tempLocalDir ext.tmpdir filename
    let tempLocalThumbFile := tempLocalThumbFile ext.tmpdir filename
    let convert := convert ext.tmpdir filename quality scale
    let trace := [Effect.mkdirp tempLocalDir]
    if !ext.mkdirp then ⟨trace, files⟩ else
    let trace := trace ++ [.download filename tempLocalFile]
    if !ext.download then ⟨trace, files⟩ else
    let files := tempLocalFile :: files
    let trace := trace ++ [.spawn "convert" convert]
    if !ext.spawn then ⟨trace, files⟩ else
    let files := tempLocalThumbFile :: files
    let trace := trace ++ [.upload tempLocalThumbFile newFilePath]
    if !ext.upload then ⟨trace, files⟩ else
    let trace := trace ++ [.unlinkSync tempLocalFile]
    if !ext.unlinkTempLocalFile then ⟨trace, files⟩ else
    let files := files.filter (· ≠ tempLocalFile)
    let trace := trace ++ [.unlinkSync tempLocalThumbFile]
    if !ext.unlinkTempLocalThumbFile then ⟨trace, files⟩ else
    let files := files.filter (· ≠ tempLocalThumbFile)
    let trace := trace ++ [.getSignedUrl newFilePath, .getSignedUrl filename]
    match ext.getSignedUrl newFilePath, ext.getSignedUrl filename with
    | some url, some _ => ⟨trace ++ [.respond 200 (.text url)], files⟩
    | _, _ => ⟨trace, files⟩

/-! ## Paths as lists of segments -/

/-- The segments of a path: the maximal runs of characters between slashes. -/
def segments : List Char → List (List Char)
  | [] => [[]]
  | c :: cs =>
    if c = '/' then [] :: segments cs
    else
      match segments cs with
      | [] => [[c]]
      | s :: ss => (c :: s) :: ss

/-- Segments put back together with a slash between neighbours. -/
def joinSegs : List (List Char) → List Char
  | [] => []
  | [s] => s
  | s :: t :: ss => s ++ '/' :: joinSegs (t :: ss)

/-- The effect on `dots` of one character that is not a slash. -/
def dotsStep (d : Int) (c : Char) : Int := if c = '.' ∧ d ≠ -1 then d + 1 else -1

/-- The effect on `res` of a complete segment that is not `..`. -/
def pushSeg (res seg : List Char) : List Char :=
  if seg = [] ∨ seg = ['.'] then res
  else if res.length > 0 then res ++ '/' :: seg else seg

/-- A segment that `normalizeString` copies unchanged: not empty, not `.`,
not `..`. -/
def isPlainSegment (s : List Char) : Bool :=
  !(decide (s = []) || decide (s = ['.']) || decide (s = ['.', '.']))

/-- Segment lists of plain paths: at least one segment, each without a slash
and plain. -/
def PlainSegs (segs : List (List Char)) : Prop :=
  segs ≠ [] ∧ ∀ s ∈ segs, '/' ∉ s ∧ isPlainSegment s = true

/-- A relative path all of whose segments are plain, such as `photos/cat.jpg`. -/
def isPlainPath (p : String) : Bool := (segments p.data).all isPlainSegment

/-- An absolute path all of whose segments are plain, such as `/tmp`. -/
def isAbsolutePlainPath (p : String) : Bool :=
  match p.data with
  | '/' :: t => (segments t).all isPlainSegment
  | _ => false

/-! ## Vocabulary of the statements -/

/-- Every stage of the pipeline succeeds for the file `filename`: the
directory is made, the source is fetched, `convert` exits with status 0, the
derivative is uploaded, both staged files are unlinked and both URLs are
signed. -/
def AllStagesSucceed (ext : Externals) (filename : String) : Prop :=
  ext.mkdirp = true ∧ ext.download = true ∧ ext.spawn = true ∧ ext.upload = true ∧
  ext.unlinkTempLocalFile = true ∧ ext.unlinkTempLocalThumbFile = true ∧
  (ext.getSignedUrl (newFilePath filename)).isSome = true ∧
  (ext.getSignedUrl filename).isSome = true

instance (ext : Externals) (filename : String) : Decidable (AllStagesSucceed ext filename) := by
  unfold AllStagesSucceed; infer_instance

/-- An outside world in which every call succeeds, with `/tmp` as the
temporary directory. -/
def sampleExternals : Externals :=
  { tmpdir := "/tmp", mkdirp := true, download := true, spawn := true, upload := true,
    unlinkTempLocalFile := true, unlinkTempLocalThumbFile := true,
    getSignedUrl := fun object => some ("https://storage.example/" ++ object) }

/-- The same world, except that the source object cannot be downloaded. -/
def downloadFails : Externals := { sampleExternals with download := false }

/-- The same world, except that `convert` exits with a failure. -/
def convertFails : Externals := { sampleExternals with spawn := false }

/-! ## Lemmas on the path functions -/

theorem segments_ne_nil (p : List Char) : segments p ≠ [] := by
  induction p with
  | nil => simp [segments]
  | cons c cs ih =>
    unfold segments
    split
    · simp
    · split <;> simp

theorem joinSegs_segments (p : List Char) : joinSegs (segments p) = p := by
  induction p with
  | nil => simp [segments, joinSegs]
  | cons c cs ih =>
    unfold segments
    split
    · rename_i h
      cases hs : segments cs with
      | nil => exact absurd hs (segments_ne_nil cs)
      | cons s ss => rw [hs] at ih; simp [joinSegs, ih, h]
    · cases hs : segments cs with
      | nil => exact absurd hs (segments_ne_nil cs)
      | cons s ss =>
        rw [hs] at ih
        cases ss with
        | nil => simpa [joinSegs] using ih
        | cons t ts => simp only [joinSegs] at ih ⊢; simp [ih]

theorem slash_not_mem_segments (p : List Char) : ∀ s ∈ segments p, '/' ∉ s := by
  induction p with
  | nil => simp [segments]
  | cons c cs ih =>
    unfold segments
    split
    · intro s hs
      rcases List.mem_cons.mp hs with h | h
      · simp [h]
      · exact ih s h
    · rename_i hc
      cases hs : segments cs with
      | nil => exact absurd hs (segments_ne_nil cs)
      | cons s ss =>
        rw [hs] at ih
        intro x hx
        rcases List.mem_cons.mp hx with h | h
        · subst h
          have := ih s (List.mem_cons_self _ _)
          simp [this, Ne.symm hc]
        · exact ih x (List.mem_cons_of_mem _ h)

theorem slice_mid (pre seg rest : List Char) :
    slice (pre ++ seg ++ rest) pre.length (pre.length + seg.length) = seg := by
  unfold slice
  have : (pre ++ seg ++ rest).take (pre.length + seg.length) = pre ++ seg := by
    rw [← List.length_append]; exact List.take_left' rfl
  rw [this]; simp

theorem getD_mid (pre rest : List Char) (c d : Char) :
    (pre ++ c :: rest).getD pre.length d = c := by
  rw [List.getD_eq_getElem?_getD, List.getElem?_append_right (le_refl _)]; simp

theorem normalizeBody_of_ne_slash (path : List Char) (allow : Bool) (i : Nat)
    (st : NormState) (h : st.code ≠ '/') :
    normalizeBody path allow i st = { st with dots := dotsStep st.dots st.code } := by
  unfold normalizeBody dotsStep
  rw [if_neg h]
  split <;> rfl

/-- Lemma A: the characters of one segment only move `dots` and `code`. -/
theorem normalizeLoop_segment (allow : Bool) (seg : List Char) (hseg : '/' ∉ seg) :
    ∀ (pre rest : List Char) (st : NormState) (fuel : Nat),
      normalizeLoop (pre ++ seg ++ rest) allow (fuel + seg.length) pre.length st =
      normalizeLoop (pre ++ seg ++ rest) allow fuel (pre.length + seg.length)
        { st with dots := seg.foldl dotsStep st.dots,
                  code := seg.getLast?.getD st.code } := by
  induction seg with
  | nil => intro pre rest st fuel; simp
  | cons c cs ih =>
    intro pre rest st fuel
    have hc : c ≠ '/' := fun h => hseg (by simp [h])
    have hcs : '/' ∉ cs := fun h => hseg (List.mem_cons_of_mem _ h)
    have hlt : pre.length < (pre ++ c :: cs ++ rest).length := by simp
    have e1 : fuel + (c :: cs).length = (fuel + cs.length) + 1 := by
      simp only [List.length_cons]; omega
    rw [e1, normalizeLoop, if_pos hlt]
    have hget : (pre ++ c :: cs ++ rest).getD pre.length '/' = c := by
      rw [List.append_assoc]; exact getD_mid pre _ c '/'
    rw [hget, normalizeBody_of_ne_slash _ _ _ _ hc]
    have e2 : pre ++ c :: cs ++ rest = (pre ++ [c]) ++ cs ++ rest := by simp
    have e3 : pre.length + 1 = (pre ++ [c]).length := by simp
    rw [e2, e3, ih hcs]
    congr 1
    · simp; omega
    · cases cs with
      | nil => simp
      | cons d ds =>
        simp [List.getLast?_cons_cons, List.getLast?_eq_getLast _ (List.cons_ne_nil d ds)]

theorem foldl_dotsStep_neg (seg : List Char) : seg.foldl dotsStep (-1) = -1 := by
  induction seg with
  | nil => rfl
  | cons c cs ih => simpa [dotsStep] using ih

theorem foldl_dotsStep (seg : List Char) :
    ∀ d : Int, 0 ≤ d →
      seg.foldl dotsStep d = if seg.all (· = '.') then d + seg.length else -1 := by
  induction seg with
  | nil => intro d _; simp
  | cons c cs ih =>
    intro d hd
    by_cases hc : c = '.'
    · have hd1 : d ≠ -1 := by omega
      have : dotsStep d c = d + 1 := by simp [dotsStep, hc, hd1]
      rw [List.foldl_cons, this, ih (d + 1) (by omega)]
      simp only [List.all_cons, hc, decide_True, Bool.true_and, List.length_cons]
      split
      · push_cast; omega
      · rfl
    · have : dotsStep d c = -1 := by simp [dotsStep, hc]
      rw [List.foldl_cons, this, foldl_dotsStep_neg]
      simp [hc]

theorem dots_eq_one (seg : List Char) : seg.foldl dotsStep 0 = 1 ↔ seg = ['.'] := by
  rw [foldl_dotsStep seg 0 (le_refl _)]
  constructor
  · intro h
    split at h
    · rename_i hall
      match seg, hall, h with
      | [c], hall, _ => simpa using hall
      | [], _, h => simp at h
      | _ :: _ :: _, _, h => simp at h; omega
    · omega
  · rintro rfl; simp

theorem dots_eq_two (seg : List Char) : seg.foldl dotsStep 0 = 2 ↔ seg = ['.', '.'] := by
  rw [foldl_dotsStep seg 0 (le_refl _)]
  constructor
  · intro h
    split at h
    · rename_i hall
      match seg, hall, h with
      | [c, d], hall, _ => simpa using hall
      | [], _, h => simp at h
      | [_], _, h => simp at h
      | _ :: _ :: _ :: _, _, h => simp at h; omega
    · omega
  · rintro rfl; simp

/-- Lemma B: the body at the slash (real or virtual) that ends a segment other
than `..`. -/
theorem normalizeBody_slash (allow : Bool) (pre seg rest : List Char) (st : NormState)
    (hcode : st.code = '/') (hls : st.lastSlash = (pre.length : Int) - 1)
    (hdots : st.dots = seg.foldl dotsStep 0) (hseg : seg ≠ ['.', '.']) :
    (normalizeBody (pre ++ seg ++ rest) allow (pre.length + seg.length) st).res
        = pushSeg st.res seg ∧
    (normalizeBody (pre ++ seg ++ rest) allow (pre.length + seg.length) st).lastSlash
        = ((pre.length + seg.length : Nat) : Int) ∧
    (normalizeBody (pre ++ seg ++ rest) allow (pre.length + seg.length) st).dots = 0 := by
  have h1 : st.dots = 1 ↔ seg = ['.'] := by rw [hdots]; exact dots_eq_one seg
  have h2 : ¬ st.dots = 2 := by rw [hdots, dots_eq_two]; exact hseg
  have h0 : st.lastSlash = ((pre.length + seg.length : Nat) : Int) - 1 ↔ seg = [] := by
    rw [hls, ← List.length_eq_zero]; push_cast; omega
  unfold normalizeBody
  rw [if_pos hcode]
  by_cases hnoop : st.lastSlash = ((pre.length + seg.length : Nat) : Int) - 1 ∨ st.dots = 1
  · rw [if_pos hnoop]
    have : seg = [] ∨ seg = ['.'] := by rwa [h0, h1] at hnoop
    simp [pushSeg, this]
  · rw [if_neg hnoop, if_neg h2]
    have hp : ¬ (seg = [] ∨ seg = ['.']) := by rwa [h0, h1] at hnoop
    have hidx : (st.lastSlash + 1).toNat = pre.length := by rw [hls]; simp
    simp only [hidx, slice_mid, pushSeg, if_neg hp]
    simp

/-- Lemma C: the loop of `normalizeString` on a path without a `..` segment
pushes the segments one after the other. -/
theorem normalizeLoop_segs (allow : Bool) (segs : List (List Char)) (hne : segs ≠ [])
    (hsegs : ∀ s ∈ segs, '/' ∉ s ∧ s ≠ ['.', '.']) :
    ∀ (pre : List Char) (st : NormState),
      st.lastSlash = (pre.length : Int) - 1 → st.dots = 0 →
      normalizeLoop (pre ++ joinSegs segs) allow ((joinSegs segs).length + 1) pre.length st
        = segs.foldl pushSeg st.res := by
  induction segs with
  | nil => exact absurd rfl hne
  | cons s ss ih =>
    intro pre st hls hdots
    obtain ⟨hs1, hs2⟩ := hsegs s (List.mem_cons_self _ _)
    cases ss with
    | nil =>
      have hA := normalizeLoop_segment allow s hs1 pre [] st 1
      simp only [List.append_nil] at hA
      simp only [joinSegs, List.foldl_cons, List.foldl_nil]
      rw [Nat.add_comm, hA, normalizeLoop, if_neg (by simp)]
      split
      · rename_i hcode
        have : s = [] := by
          by_contra hne
          have hl := List.getLast?_eq_getLast s hne
          simp only [hl, Option.getD_some] at hcode
          exact hs1 (hcode ▸ List.getLast_mem hne)
        simp [this, pushSeg]
      · have hB := normalizeBody_slash allow pre s []
          { res := st.res, lastSegmentLength := st.lastSegmentLength, lastSlash := st.lastSlash,
            dots := s.foldl dotsStep st.dots, code := '/' } rfl hls (by simp [hdots]) hs2
        simp only [List.append_nil] at hB
        simp only [normalizeLoop]
        exact hB.1
    | cons t ts =>
      have hA := normalizeLoop_segment allow s hs1 pre ('/' :: joinSegs (t :: ts)) st
        ((joinSegs (t :: ts)).length + 2)
      have hpath : pre ++ joinSegs (s :: t :: ts) = pre ++ s ++ '/' :: joinSegs (t :: ts) := by
        simp [joinSegs]
      have hfuel : (joinSegs (s :: t :: ts)).length + 1
          = (joinSegs (t :: ts)).length + 2 + s.length := by
        simp [joinSegs]; omega
      rw [hpath, hfuel, hA, normalizeLoop, if_pos (by simp)]
      have hget : (pre ++ s ++ '/' :: joinSegs (t :: ts)).getD (pre.length + s.length) '/'
          = '/' := by
        rw [← List.length_append]; exact getD_mid _ _ _ _
      rw [hget]
      have hB := normalizeBody_slash allow pre s ('/' :: joinSegs (t :: ts))
          { res := st.res, lastSegmentLength := st.lastSegmentLength, lastSlash := st.lastSlash,
            dots := s.foldl dotsStep st.dots, code := '/' } rfl hls (by simp [hdots]) hs2
      obtain ⟨hB1, hB2, hB3⟩ := hB
      have hpath2 : pre ++ s ++ '/' :: joinSegs (t :: ts)
          = (pre ++ s ++ ['/']) ++ joinSegs (t :: ts) := by simp
      have hidx : pre.length + s.length + 1 = (pre ++ s ++ ['/']).length := by
        simp only [List.length_append, List.length_singleton]
      have hIH := ih (by simp) (fun x hx => hsegs x (List.mem_cons_of_mem _ hx))
        (pre ++ s ++ ['/'])
        (normalizeBody (pre ++ s ++ '/' :: joinSegs (t :: ts)) allow (pre.length + s.length)
          { res := st.res, lastSegmentLength := st.lastSegmentLength, lastSlash := st.lastSlash,
            dots := s.foldl dotsStep st.dots, code := '/' })
        (by rw [hB2]; simp only [List.length_append, List.length_singleton]; push_cast; omega)
        hB3
      rw [hB1] at hIH
      rw [List.foldl_cons, ← hIH, ← hpath2, ← hidx]

/-- On a path without a `..` segment `normalizeString` keeps, in order, the
segments that are neither empty nor `.`. -/
theorem normalizeString_eq (allow : Bool) (path : List Char)
    (h : ∀ s ∈ segments path, s ≠ ['.', '.']) :
    normalizeString path allow = (segments path).foldl pushSeg [] := by
  have := normalizeLoop_segs allow (segments path) (segments_ne_nil path)
    (fun s hs => ⟨slash_not_mem_segments path s hs, h s hs⟩) []
    ⟨[], 0, -1, 0, Char.ofNat 0⟩ (by simp) rfl
  simpa [joinSegs_segments, normalizeString] using this

theorem charAt_right (d b : List Char) (k : Nat) :
    charAt (d ++ '/' :: b) (d.length + 1 + k) = b.get? k := by
  unfold charAt
  rw [List.get?_eq_getElem?, List.get?_eq_getElem?,
    List.getElem?_append_right (by omega)]
  have : d.length + 1 + k - d.length = k + 1 := by omega
  rw [this, List.getElem?_cons_succ]

theorem charAt_mid (d b : List Char) : charAt (d ++ '/' :: b) d.length = some '/' := by
  unfold charAt
  rw [List.get?_eq_getElem?, List.getElem?_append_right (le_refl _)]; simp

theorem charAt_ne_slash (b : List Char) (hb : '/' ∉ b) (k : Nat) :
    charAt b k ≠ some '/' := by
  unfold charAt
  intro h
  exact hb (List.get?_mem h)

theorem dirnameLoop_no_slash (b : List Char) (hb : '/' ∉ b) :
    ∀ (i : Nat) (m : Bool), dirnameLoop b i m = none := by
  intro i
  induction i with
  | zero => intro m; rfl
  | succ i ih =>
    intro m
    rw [dirnameLoop, if_neg (charAt_ne_slash b hb _)]
    exact ih false

theorem dirnameLoop_last (d b : List Char) (hd : d ≠ []) (hb : '/' ∉ b) :
    ∀ (k : Nat) (m : Bool), (k = 0 → m = false) →
      dirnameLoop (d ++ '/' :: b) (d.length + k) m = some d.length := by
  intro k
  induction k with
  | zero =>
    intro m hm
    obtain ⟨n, hn⟩ : ∃ n, d.length = n + 1 :=
      Nat.exists_eq_succ_of_ne_zero (by simpa using hd)
    have hc := charAt_mid d b
    rw [Nat.add_zero, hn, dirnameLoop]
    rw [hn] at hc
    rw [if_pos hc, hm rfl]; rfl
  | succ k ih =>
    intro m _
    have hc : charAt (d ++ '/' :: b) (d.length + k + 1) ≠ some '/' := by
      have := charAt_right d b k
      rw [show d.length + 1 + k = d.length + k + 1 by omega] at this
      rw [this]
      exact charAt_ne_slash b hb k
    rw [show d.length + (k + 1) = (d.length + k) + 1 by omega, dirnameLoop, if_neg hc]
    by_cases hk : k = 0
    · exact ih false (fun _ => rfl)
    · exact ih false (fun h => absurd h hk)

/-- The directory name of `d/b` is `d`. -/
theorem dirnameChars_last (d b : List Char) (hd : d ≠ []) (hd1 : d ≠ ['/'])
    (hb0 : b ≠ []) (hb : '/' ∉ b) : dirnameChars (d ++ '/' :: b) = d := by
  unfold dirnameChars
  rw [if_neg (by simp)]
  have hlen : (d ++ '/' :: b).length - 1 = d.length + b.length := by simp
  have hk : b.length = 0 → true = false := fun h => absurd (List.length_eq_zero.mp h) hb0
  rw [hlen, dirnameLoop_last d b hd hb b.length true hk]
  simp only
  have hslice : slice (d ++ '/' :: b) 0 d.length = d := by simp [slice]
  rw [hslice]
  split
  · rename_i h
    obtain ⟨_, h1⟩ := h
    match d, hd, hd1, h1 with
    | [c], _, hd1, _ =>
      rename_i h0
      simp [charAt] at h0
      exact absurd (by rw [h0]) hd1
  · rfl

/-- The directory name of a path without a slash is `.`. -/
theorem dirnameChars_single (b : List Char) (hb0 : b ≠ []) (hb : '/' ∉ b) :
    dirnameChars b = ['.'] := by
  unfold dirnameChars
  rw [if_neg (by simpa using hb0), dirnameLoop_no_slash b hb]
  have : ¬ charAt b 0 = some '/' := charAt_ne_slash b hb 0
  simp [this]

theorem basenameLoop_no_slash (b : List Char) (hb : '/' ∉ b) (e : Nat) :
    ∀ (k : Nat), basenameLoop b k ⟨0, some e, false⟩ = ⟨0, some e, false⟩ := by
  intro k
  induction k with
  | zero => rfl
  | succ k ih =>
    rw [basenameLoop, if_neg (charAt_ne_slash b hb _), if_neg (by simp)]
    exact ih

/-- The base name of a path without a slash is the path. -/
theorem basenameChars_single (b : List Char) (hb : '/' ∉ b) : basenameChars b = b := by
  unfold basenameChars
  cases hlen : b.length with
  | zero =>
    have : b = [] := List.length_eq_zero.mp hlen
    subst this; rfl
  | succ n =>
    rw [basenameLoop, if_neg (charAt_ne_slash b hb _), if_pos rfl]
    simp only [basenameLoop_no_slash b hb]
    simp [slice, ← hlen]

theorem basenameLoop_last (d b : List Char) (hb : '/' ∉ b) (e : Nat) :
    ∀ (k : Nat),
      basenameLoop (d ++ '/' :: b) (d.length + 1 + k) ⟨0, some e, false⟩
        = ⟨d.length + 1, some e, false⟩ := by
  intro k
  induction k with
  | zero =>
    rw [Nat.add_zero, basenameLoop, if_pos (charAt_mid d b)]
    rfl
  | succ k ih =>
    have hc : charAt (d ++ '/' :: b) (d.length + 1 + k) ≠ some '/' := by
      rw [charAt_right]; exact charAt_ne_slash b hb k
    rw [show d.length + 1 + (k + 1) = (d.length + 1 + k) + 1 by omega, basenameLoop,
      if_neg hc, if_neg (by simp)]
    exact ih

/-- The base name of `d/b` is `b`. -/
theorem basenameChars_last (d b : List Char) (hb0 : b ≠ []) (hb : '/' ∉ b) :
    basenameChars (d ++ '/' :: b) = b := by
  unfold basenameChars
  obtain ⟨n, hn⟩ : ∃ n, b.length = n + 1 :=
    Nat.exists_eq_succ_of_ne_zero (by simpa using hb0)
  have hlen : (d ++ '/' :: b).length = (d.length + 1 + n) + 1 := by simp [hn]; omega
  have hc : charAt (d ++ '/' :: b) (d.length + 1 + n) ≠ some '/' := by
    rw [charAt_right]; exact charAt_ne_slash b hb n
  rw [hlen, basenameLoop, if_neg hc, if_pos rfl]
  simp only [basenameLoop_last d b hb]
  have : d.length + 1 + n + 1 = (d ++ '/' :: b).length := hlen.symm
  rw [this]
  unfold slice
  rw [List.take_length]
  have e : d ++ '/' :: b = (d ++ ['/']) ++ b := by simp
  rw [e]
  exact List.drop_left' (by simp)

theorem isPlainSegment_iff (s : List Char) :
    isPlainSegment s = true ↔ s ≠ [] ∧ s ≠ ['.'] ∧ s ≠ ['.', '.'] := by
  simp [isPlainSegment, and_assoc]

theorem segments_no_slash (s : List Char) (hs : '/' ∉ s) : segments s = [s] := by
  induction s with
  | nil => rfl
  | cons c cs ih =>
    have hc : c ≠ '/' := fun h => hs (by simp [h])
    have hcs : '/' ∉ cs := fun h => hs (List.mem_cons_of_mem _ h)
    rw [segments, if_neg hc, ih hcs]

theorem segments_append_slash (s r : List Char) (hs : '/' ∉ s) :
    segments (s ++ '/' :: r) = s :: segments r := by
  induction s with
  | nil => simp [segments]
  | cons c cs ih =>
    have hc : c ≠ '/' := fun h => hs (by simp [h])
    have hcs : '/' ∉ cs := fun h => hs (List.mem_cons_of_mem _ h)
    rw [List.cons_append, segments, if_neg hc, ih hcs]

theorem segments_joinSegs (segs : List (List Char)) (hne : segs ≠ [])
    (h : ∀ s ∈ segs, '/' ∉ s) : segments (joinSegs segs) = segs := by
  induction segs with
  | nil => exact absurd rfl hne
  | cons s ss ih =>
    cases ss with
    | nil => exact segments_no_slash s (h s (List.mem_cons_self _ _))
    | cons t ts =>
      rw [joinSegs, segments_append_slash s _ (h s (List.mem_cons_self _ _)),
        ih (by simp) (fun x hx => h x (List.mem_cons_of_mem _ hx))]

theorem joinSegs_append (a b : List (List Char)) (ha : a ≠ []) (hb : b ≠ []) :
    joinSegs (a ++ b) = joinSegs a ++ '/' :: joinSegs b := by
  induction a with
  | nil => exact absurd rfl ha
  | cons s ss ih =>
    cases ss with
    | nil =>
      cases b with
      | nil => exact absurd rfl hb
      | cons t ts => simp [joinSegs]
    | cons t ts =>
      have := ih (by simp)
      simp only [List.cons_append] at this ⊢
      simp [joinSegs, this]

theorem plainSegs_append (a b : List (List Char)) (ha : PlainSegs a) (hb : PlainSegs b) :
    PlainSegs (a ++ b) :=
  ⟨by simp [ha.1], fun s hs => (List.mem_append.mp hs).elim (ha.2 s) (hb.2 s)⟩

theorem foldl_pushSeg_plain (segs : List (List Char))
    (h : ∀ s ∈ segs, isPlainSegment s = true) :
    ∀ res : List Char, segs.foldl pushSeg res =
      if segs = [] then res
      else if res = [] then joinSegs segs else res ++ '/' :: joinSegs segs := by
  induction segs with
  | nil => intro res; simp
  | cons s ss ih =>
    intro res
    obtain ⟨h1, h2, _⟩ := (isPlainSegment_iff s).mp (h s (List.mem_cons_self _ _))
    have hpush : pushSeg res s = if res = [] then s else res ++ '/' :: s := by
      unfold pushSeg
      rw [if_neg (by simp [h1, h2])]
      by_cases hr : res = []
      · simp [hr]
      · have : res.length > 0 := List.length_pos.mpr hr
        simp [hr, this]
    rw [List.foldl_cons, ih (fun x hx => h x (List.mem_cons_of_mem _ hx)), hpush]
    cases ss with
    | nil => simp [joinSegs]
    | cons t ts =>
      by_cases hr : res = []
      · simp [hr, h1, joinSegs]
      · simp [hr, joinSegs]

theorem joinSegs_ne_nil (segs : List (List Char)) (h : PlainSegs segs) :
    joinSegs segs ≠ [] := by
  obtain ⟨hne, hall⟩ := h
  cases segs with
  | nil => exact absurd rfl hne
  | cons s ss =>
    have := ((isPlainSegment_iff s).mp (hall s (List.mem_cons_self _ _)).2).1
    cases ss with
    | nil => simpa [joinSegs] using this
    | cons t ts => simp [joinSegs, this]

theorem joinSegs_head (segs : List (List Char)) (h : PlainSegs segs) :
    charAt (joinSegs segs) 0 ≠ some '/' := by
  obtain ⟨hne, hall⟩ := h
  cases segs with
  | nil => exact absurd rfl hne
  | cons s ss =>
    obtain ⟨hs, hp⟩ := hall s (List.mem_cons_self _ _)
    have hs0 := ((isPlainSegment_iff s).mp hp).1
    cases s with
    | nil => exact absurd rfl hs0
    | cons c cs =>
      have hc : c ≠ '/' := fun h => hs (by simp [h])
      cases ss <;> simp [joinSegs, charAt, hc]

theorem joinSegs_last (pre : List Char) (segs : List (List Char)) (h : PlainSegs segs) :
    charAt (pre ++ joinSegs segs) ((pre ++ joinSegs segs).length - 1) ≠ some '/' := by
  obtain ⟨hne, hall⟩ := h
  have hdec : ∃ q c, '/' ≠ c ∧ pre ++ joinSegs segs = q ++ [c] := by
    obtain ⟨hb, hp⟩ := hall (segs.getLast hne) (List.getLast_mem hne)
    have hb0 := ((isPlainSegment_iff _).mp hp).1
    have hc : '/' ≠ (segs.getLast hne).getLast hb0 :=
      fun h => hb (h ▸ List.getLast_mem hb0)
    by_cases hi : segs.dropLast = []
    · refine ⟨pre ++ (segs.getLast hne).dropLast, _, hc, ?_⟩
      have : segs = [segs.getLast hne] := by
        have := List.dropLast_append_getLast hne
        rw [hi] at this; simpa using this.symm
      rw [List.append_assoc, List.dropLast_append_getLast hb0]
      conv_lhs => rw [this]
      simp [joinSegs]
    · refine ⟨pre ++ joinSegs segs.dropLast ++ '/' :: (segs.getLast hne).dropLast, _, hc, ?_⟩
      have := joinSegs_append segs.dropLast [segs.getLast hne] hi (by simp)
      rw [List.dropLast_append_getLast hne] at this
      rw [this, List.append_assoc, List.append_assoc]
      simp only [joinSegs, List.cons_append]
      rw [List.dropLast_append_getLast hb0]
  obtain ⟨q, c, hc, hq⟩ := hdec
  rw [hq]
  simp [charAt, hc.symm]

theorem plainSegs_ne_dotdot (segs : List (List Char)) (h : PlainSegs segs) :
    ∀ s ∈ segs, s ≠ ['.', '.'] :=
  fun s hs => ((isPlainSegment_iff s).mp (h.2 s hs).2).2.2

/-- N1: `normalize` leaves a relative plain path unchanged. -/
theorem normalizeChars_plain (segs : List (List Char)) (h : PlainSegs segs) :
    normalizeChars (joinSegs segs) = joinSegs segs := by
  have hne := joinSegs_ne_nil segs h
  have hseg : segments (joinSegs segs) = segs :=
    segments_joinSegs segs h.1 (fun s hs => (h.2 s hs).1)
  have hns : normalizeString (joinSegs segs) true = joinSegs segs := by
    rw [normalizeString_eq _ _ (by rw [hseg]; exact plainSegs_ne_dotdot segs h), hseg,
      foldl_pushSeg_plain segs (fun s hs => (h.2 s hs).2)]
    simp [h.1]
  have hlast := joinSegs_last [] segs h
  simp only [List.nil_append] at hlast
  unfold normalizeChars
  rw [if_neg (by simpa using hne)]
  simp only [joinSegs_head segs h, hlast, decide_False, Bool.not_false, hns]
  simp [hne]

/-- N2: `normalize` leaves an absolute plain path unchanged. -/
theorem normalizeChars_abs (segs : List (List Char)) (h : PlainSegs segs) :
    normalizeChars ('/' :: joinSegs segs) = '/' :: joinSegs segs := by
  have hne := joinSegs_ne_nil segs h
  have hseg : segments ('/' :: joinSegs segs) = [] :: segs := by
    rw [segments, if_pos rfl, segments_joinSegs segs h.1 (fun s hs => (h.2 s hs).1)]
  have hns : normalizeString ('/' :: joinSegs segs) false = joinSegs segs := by
    rw [normalizeString_eq _ _ (by
        rw [hseg]; intro s hs
        rcases List.mem_cons.mp hs with h0 | h0
        · simp [h0]
        · exact plainSegs_ne_dotdot segs h s h0), hseg,
      List.foldl_cons, foldl_pushSeg_plain segs (fun s hs => (h.2 s hs).2)]
    simp [h.1, pushSeg]
  have hlast := joinSegs_last ['/'] segs h
  simp only [List.singleton_append] at hlast
  unfold normalizeChars
  rw [if_neg (by simp)]
  have h0 : charAt ('/' :: joinSegs segs) 0 = some '/' := rfl
  simp only [h0, hlast, decide_True, decide_False, Bool.not_true, hns]
  simp [hne]

/-- N3: `normalize` drops a leading `./` from a plain path. -/
theorem normalizeChars_dot (segs : List (List Char)) (h : PlainSegs segs) :
    normalizeChars ('.' :: '/' :: joinSegs segs) = joinSegs segs := by
  have hne := joinSegs_ne_nil segs h
  have hseg : segments ('.' :: '/' :: joinSegs segs) = ['.'] :: segs := by
    have := segments_append_slash ['.'] (joinSegs segs) (by simp)
    rw [segments_joinSegs segs h.1 (fun s hs => (h.2 s hs).1)] at this
    simpa using this
  have hns : normalizeString ('.' :: '/' :: joinSegs segs) true = joinSegs segs := by
    rw [normalizeString_eq _ _ (by
        rw [hseg]; intro s hs
        rcases List.mem_cons.mp hs with h0 | h0
        · simp [h0]
        · exact plainSegs_ne_dotdot segs h s h0), hseg,
      List.foldl_cons, foldl_pushSeg_plain segs (fun s hs => (h.2 s hs).2)]
    simp [h.1, pushSeg]
  have hlast := joinSegs_last ['.', '/'] segs h
  simp only [List.cons_append, List.nil_append] at hlast
  unfold normalizeChars
  rw [if_neg (by simp)]
  have h0 : charAt ('.' :: '/' :: joinSegs segs) 0 ≠ some '/' := by simp [charAt]
  simp only [h0, hlast, decide_False, Bool.not_false, hns]
  simp [hne]

theorem joinChars_pair (a b : List Char) (ha : a ≠ []) (hb : b ≠ []) :
    joinChars [a, b] = normalizeChars (a ++ '/' :: b) := by
  have ha1 : a.length > 0 := List.length_pos.mpr ha
  have hb1 : b.length > 0 := List.length_pos.mpr hb
  simp [joinChars, joinLoop, ha1, hb1]

theorem plainSegs_segments (p : List Char) (h : (segments p).all isPlainSegment = true) :
    PlainSegs (segments p) :=
  ⟨segments_ne_nil p, fun s hs => ⟨slash_not_mem_segments p s hs, List.all_eq_true.mp h s hs⟩⟩

theorem plainSegs_suffix (b m : List Char) (hb : '/' ∉ b) (hm : '/' ∉ m)
    (hlen : 3 ≤ m.length) : PlainSegs [b ++ m] := by
  refine ⟨by simp, fun s hs => ?_⟩
  rw [List.mem_singleton] at hs
  subst hs
  refine ⟨by simp [hb, hm], (isPlainSegment_iff _).mpr ⟨?_, ?_, ?_⟩⟩ <;>
  · intro h
    have := congrArg List.length h
    simp only [List.length_append, List.length_cons, List.length_nil] at this
    omega

/-- T1: on a plain path the derivative path is the path with the postfix appended. -/
theorem newFilePathChars_plain (p m : List Char) (hp : PlainSegs (segments p))
    (hm : '/' ∉ m) (hlen : 3 ≤ m.length) :
    normalizeChars (joinChars [dirnameChars p, basenameChars p ++ m]) = p ++ m := by
  obtain ⟨hne, hall⟩ := hp
  have hjoin := joinSegs_segments p
  obtain ⟨init, b, hsb⟩ : ∃ init b, segments p = init ++ [b] :=
    ⟨_, _, (List.dropLast_append_getLast hne).symm⟩
  rw [hsb] at hall hjoin
  obtain ⟨hb, hbp⟩ := hall b (by simp)
  have hb0 := ((isPlainSegment_iff _).mp hbp).1
  have hbm := plainSegs_suffix b m hb hm hlen
  have hbm0 : b ++ m ≠ [] := by simp [hb0]
  by_cases hi : init = []
  · have hp1 : p = b := by rw [← hjoin, hi]; rfl
    subst hp1
    rw [dirnameChars_single p hb0 hb, basenameChars_single p hb,
      joinChars_pair _ _ (by simp) hbm0]
    have h3 := normalizeChars_dot [p ++ m] hbm
    simp only [joinSegs] at h3
    rw [List.singleton_append, h3]
    have h1 := normalizeChars_plain [p ++ m] hbm
    simpa [joinSegs] using h1
  · have hinit : PlainSegs init :=
      ⟨hi, fun s hs => hall s (List.mem_append_left _ hs)⟩
    have hp1 : p = joinSegs init ++ '/' :: b := by
      rw [← hjoin, joinSegs_append init [b] hi (by simp)]; rfl
    have hd0 := joinSegs_ne_nil _ hinit
    have hd1 : joinSegs init ≠ ['/'] := by
      intro h
      have := joinSegs_head _ hinit
      rw [h] at this
      exact this rfl
    have hdir : dirnameChars p = joinSegs init := by
      rw [hp1]; exact dirnameChars_last _ _ hd0 hd1 hb0 hb
    have hbase : basenameChars p = b := by
      rw [hp1]; exact basenameChars_last _ _ hb0 hb
    have h1 := normalizeChars_plain _ (plainSegs_append _ _ hinit hbm)
    have hj2 : joinSegs (init ++ [b ++ m]) = p ++ m := by
      rw [joinSegs_append _ _ hi (by simp), hp1]
      simp [joinSegs]
    rw [hj2] at h1
    have e : joinSegs init ++ '/' :: (b ++ m) = p ++ m := by
      rw [hp1]; simp
    rw [hdir, hbase, joinChars_pair _ _ hd0 hbm0, e, h1, h1]

/-- T2: joining an absolute plain directory and a relative plain path
concatenates them. -/
theorem joinChars_plain (t p : List Char) (ht : PlainSegs (segments t))
    (hp : PlainSegs (segments p)) :
    joinChars ['/' :: t, p] = '/' :: t ++ '/' :: p := by
  have hp0 : p ≠ [] := by
    have := joinSegs_ne_nil _ hp
    rwa [joinSegs_segments] at this
  rw [joinChars_pair _ _ (by simp) hp0]
  have h := normalizeChars_abs _ (plainSegs_append _ _ ht hp)
  rw [joinSegs_append _ _ ht.1 hp.1, joinSegs_segments, joinSegs_segments] at h
  simpa using h

/-- The characters of `newFilePostfix`. -/
theorem newFilePostfix_data : newFilePostfix.data = ['_', 'm', 'o', 'd', 'i', 'f', 'i', 'e', 'd'] :=
  rfl

theorem plainSegs_append_suffix (p m : List Char) (hp : PlainSegs (segments p))
    (hm : '/' ∉ m) (hlen : 3 ≤ m.length) : PlainSegs (segments (p ++ m)) := by
  obtain ⟨hne, hall⟩ := hp
  have hjoin := joinSegs_segments p
  obtain ⟨init, b, hsb⟩ : ∃ init b, segments p = init ++ [b] :=
    ⟨_, _, (List.dropLast_append_getLast hne).symm⟩
  rw [hsb] at hall hjoin
  obtain ⟨hb, _⟩ := hall b (by simp)
  have hbm := plainSegs_suffix b m hb hm hlen
  by_cases hi : init = []
  · have hp1 : p = b := by rw [← hjoin, hi]; rfl
    subst hp1
    rw [segments_no_slash _ (by simp [hb, hm])]
    exact hbm
  · have hinit : PlainSegs init := ⟨hi, fun s hs => hall s (List.mem_append_left _ hs)⟩
    have hall2 := plainSegs_append _ _ hinit hbm
    have hj2 : joinSegs (init ++ [b ++ m]) = p ++ m := by
      rw [joinSegs_append _ _ hi (by simp), ← hjoin, joinSegs_append init [b] hi (by simp)]
      simp [joinSegs]
    rw [← hj2, segments_joinSegs _ hall2.1 (fun s hs => (hall2.2 s hs).1)]
    exact hall2

theorem newFilePath_plain (filename : String) (h : isPlainPath filename = true) :
    newFilePath filename = filename ++ "_modified" := by
  have hp := plainSegs_segments filename.data h
  have := newFilePathChars_plain filename.data newFilePostfix.data hp (by decide) (by decide)
  apply String.ext
  simpa [newFilePath, normalize, join, fileDir, fileName, dirname, basename] using this

theorem tmpdir_data (tmpdir : String) (h : isAbsolutePlainPath tmpdir = true) :
    ∃ t, tmpdir.data = '/' :: t ∧ PlainSegs (segments t) := by
  unfold isAbsolutePlainPath at h
  split at h
  · rename_i t ht
    exact ⟨t, ht, plainSegs_segments t h⟩
  · exact absurd h (by simp)

theorem tempLocalFile_plain (tmpdir filename : String)
    (ht : isAbsolutePlainPath tmpdir = true) (h : isPlainPath filename = true) :
    tempLocalFile tmpdir filename = tmpdir ++ "/" ++ filename := by
  obtain ⟨t, ht1, ht2⟩ := tmpdir_data tmpdir ht
  have := joinChars_plain t filename.data ht2 (plainSegs_segments _ h)
  apply String.ext
  simp only [tempLocalFile, join, ht1, this, String.data_append]
  simp

theorem tempLocalThumbFile_plain (tmpdir filename : String)
    (ht : isAbsolutePlainPath tmpdir = true) (h : isPlainPath filename = true) :
    tempLocalThumbFile tmpdir filename = tmpdir ++ "/" ++ filename ++ "_modified" := by
  obtain ⟨t, ht1, ht2⟩ := tmpdir_data tmpdir ht
  have hp := plainSegs_append_suffix filename.data newFilePostfix.data
    (plainSegs_segments _ h) (by decide) (by decide)
  have := joinChars_plain t (filename.data ++ newFilePostfix.data) ht2 hp
  apply String.ext
  rw [newFilePostfix_data] at this
  simp only [tempLocalThumbFile, newFilePath_plain filename h, join, ht1, String.data_append]
  rw [this]
  simp

theorem dirnameLoop_pos (path : List Char) :
    ∀ (i : Nat) (m : Bool) (e : Nat), dirnameLoop path i m = some e → 1 ≤ e := by
  intro i
  induction i with
  | zero => intro m e h; simp [dirnameLoop] at h
  | succ i ih =>
    intro m e h
    rw [dirnameLoop] at h
    split at h
    · split at h
      · simp at h; omega
      · exact ih _ _ h
    · exact ih _ _ h

/-- The result of `dirname` is never the empty string. -/
theorem dirnameChars_ne_nil (path : List Char) : dirnameChars path ≠ [] := by
  unfold dirnameChars
  split
  · simp
  · rename_i hlen
    split
    · dsimp only
      split <;> simp
    · rename_i e he
      have h1 := dirnameLoop_pos path _ _ e he
      dsimp only
      split
      · simp
      · cases path with
        | nil => simp at hlen
        | cons c cs =>
          obtain ⟨n, rfl⟩ : ∃ n, e = n + 1 := ⟨e - 1, by omega⟩
          simp [slice]

theorem newFilePath_eq_normalize (filename : String) :
    newFilePath filename =
      normalize (normalize (dirname filename ++ "/" ++ basename filename ++ newFilePostfix)) := by
  have h1 := dirnameChars_ne_nil filename.data
  have h2 : basenameChars filename.data ++ newFilePostfix.data ≠ [] := by
    rw [newFilePostfix_data]; simp
  have := joinChars_pair _ _ h1 h2
  apply String.ext
  simp only [newFilePath, normalize, join, fileDir, fileName, dirname, basename,
    String.data_append, this]
  simp

theorem dir_base_plain (p : List Char) (hp : PlainSegs (segments p)) :
    (dirnameChars p = ['.'] ∧ basenameChars p = p) ∨
    (dirnameChars p ≠ ['.'] ∧ p = dirnameChars p ++ '/' :: basenameChars p) := by
  obtain ⟨hne, hall⟩ := hp
  have hjoin := joinSegs_segments p
  obtain ⟨init, b, hsb⟩ : ∃ init b, segments p = init ++ [b] :=
    ⟨_, _, (List.dropLast_append_getLast hne).symm⟩
  rw [hsb] at hall hjoin
  obtain ⟨hb, hbp⟩ := hall b (by simp)
  have hb0 := ((isPlainSegment_iff _).mp hbp).1
  by_cases hi : init = []
  · have hp1 : p = b := by rw [← hjoin, hi]; rfl
    subst hp1
    exact Or.inl ⟨dirnameChars_single p hb0 hb, basenameChars_single p hb⟩
  · have hinit : PlainSegs init := ⟨hi, fun s hs => hall s (List.mem_append_left _ hs)⟩
    have hp1 : p = joinSegs init ++ '/' :: b := by
      rw [← hjoin, joinSegs_append init [b] hi (by simp)]; rfl
    have hd0 := joinSegs_ne_nil _ hinit
    have hd1 : joinSegs init ≠ ['/'] := by
      intro h
      have := joinSegs_head _ hinit
      rw [h] at this
      exact this rfl
    have hdir : dirnameChars p = joinSegs init := by
      rw [hp1]; exact dirnameChars_last _ _ hd0 hd1 hb0 hb
    have hbase : basenameChars p = b := by
      rw [hp1]; exact basenameChars_last _ _ hb0 hb
    refine Or.inr ⟨?_, ?_⟩
    · rw [hdir]
      intro h
      have hs := segments_joinSegs init hi (fun s hs => (hinit.2 s hs).1)
      rw [h] at hs
      have : ['.'] ∈ init := by rw [← hs]; simp [segments]
      have := (hinit.2 _ this).2
      simp [isPlainSegment] at this
    · rw [hdir, hbase]; exact hp1

/-! ## The handler: validation, defaults and the command line -/

/-- C1: a request whose `filename` query parameter is missing or empty is
answered with status 409 and the JSON body
`{ message: "File parameter not specified", statusCode: 409 }`; this response
is the only effect of the handler. -/
theorem missing_filename_yields_409 (ext : Externals) (req : Query) (files : List String)
    (h : req.filename = none ∨ req.filename = some "") :
    (createNewLowerQualityImage ext req files).response =
      some ⟨409, .json "File parameter not specified" 409⟩ ∧
    (createNewLowerQualityImage ext req files).trace =
      [.respond 409 (.json "File parameter not specified" 409)] := by
  rcases h with h | h <;> simp [createNewLowerQualityImage, h, Outcome.response]

/-- C1 (witness): the request `?filename=&quality=50`. -/
theorem missing_filename_yields_409_witness :
    ((⟨some "", some "50", none⟩ : Query).filename = none ∨
      (⟨some "", some "50", none⟩ : Query).filename = some "") ∧
    (createNewLowerQualityImage sampleExternals ⟨some "", some "50", none⟩ []).response =
      some ⟨409, .json "File parameter not specified" 409⟩ :=
  ⟨Or.inr rfl, (missing_filename_yields_409 sampleExternals ⟨some "", some "50", none⟩ []
    (Or.inr rfl)).1⟩

/-- The whole run when every stage succeeds. -/
theorem trace_of_success (ext : Externals) (req : Query) (files : List String)
    (filename url : String) (hreq : req.filename = some filename) (hne : filename ≠ "")
    (hall : AllStagesSucceed ext filename)
    (hurl : ext.getSignedUrl (newFilePath filename) = some url) :
    (createNewLowerQualityImage ext req files).trace =
      [.mkdirp (tempLocalDir ext.tmpdir filename),
       .download filename (tempLocalFile ext.tmpdir filename),
       .spawn "convert" (convert ext.tmpdir filename (orDefault req.quality 10)
          (orDefault req.scale 100)),
       .upload (tempLocalThumbFile ext.tmpdir filename) (newFilePath filename),
       .unlinkSync (tempLocalFile ext.tmpdir filename),
       .unlinkSync (tempLocalThumbFile ext.tmpdir filename),
       .getSignedUrl (newFilePath filename),
       .getSignedUrl filename,
       .respond 200 (.text url)] := by
  obtain ⟨h1, h2, h3, h4, h5, h6, _, h8⟩ := hall
  obtain ⟨v, hv⟩ := Option.isSome_iff_exists.mp h8
  simp [createNewLowerQualityImage, hreq, hne, h1, h2, h3, h4, h5, h6, hurl, hv]

/-- The array `convert` when `quality` and `scale` are absent. -/
theorem convert_default (tmpdir filename : String) :
    convert tmpdir filename (orDefault none 10) (orDefault none 100) =
      [.str (tempLocalFile tmpdir filename), .str "-quality", .num 10, .str "-scale",
       .str "100%", .str "-dither", .str "none", .str "-posterize", .str "100",
       .str "-strip", .str (tempLocalThumbFile tmpdir filename)] := by
  have : (JSValue.num 100).toStr ++ "%" = "100%" := by decide
  simp [convert, orDefault, this]

/-- C5: for every request with a non-empty `filename` and neither `quality`
nor `scale`, every command the handler spawns is `convert` with the number 10
after `-quality` and the string `100%` after `-scale`, and it is spawned as
soon as the directory is made and the source fetched; when every stage
succeeds the response has status 200 and carries the URL signed for the
derivative object.  For `photos/cat.jpg` the derivative object is
`photos/cat.jpg_modified`: when every stage succeeds `convert` is run with
that command line, the URL of `photos/cat.jpg_modified` is requested, and the
response is 200 with that URL. -/
theorem defaults_when_absent (ext : Externals) (files : List String) (filename : String)
    (hne : filename ≠ "") :
    (∀ command args,
      Effect.spawn command args
          ∈ (createNewLowerQualityImage ext ⟨some filename, none, none⟩ files).trace →
        command = "convert" ∧
        args = [.str (tempLocalFile ext.tmpdir filename), .str "-quality", .num 10,
                .str "-scale", .str "100%", .str "-dither", .str "none", .str "-posterize",
                .str "100", .str "-strip", .str (tempLocalThumbFile ext.tmpdir filename)]) ∧
    (ext.mkdirp = true → ext.download = true →
      Effect.spawn "convert"
          [.str (tempLocalFile ext.tmpdir filename), .str "-quality", .num 10,
           .str "-scale", .str "100%", .str "-dither", .str "none", .str "-posterize",
           .str "100", .str "-strip", .str (tempLocalThumbFile ext.tmpdir filename)]
        ∈ (createNewLowerQualityImage ext ⟨some filename, none, none⟩ files).trace) ∧
    (∀ url, AllStagesSucceed ext filename →
      ext.getSignedUrl (newFilePath filename) = some url →
      (createNewLowerQualityImage ext ⟨some filename, none, none⟩ files).response =
        some ⟨200, .text url⟩) ∧
    (∀ url, AllStagesSucceed ext "photos/cat.jpg" →
      ext.getSignedUrl "photos/cat.jpg_modified" = some url →
      Effect.spawn "convert"
          [.str (tempLocalFile ext.tmpdir "photos/cat.jpg"), .str "-quality", .num 10,
           .str "-scale", .str "100%", .str "-dither", .str "none", .str "-posterize",
           .str "100", .str "-strip", .str (tempLocalThumbFile ext.tmpdir "photos/cat.jpg")]
        ∈ (createNewLowerQualityImage ext ⟨some "photos/cat.jpg", none, none⟩ files).trace ∧
      Effect.getSignedUrl "photos/cat.jpg_modified"
        ∈ (createNewLowerQualityImage ext ⟨some "photos/cat.jpg", none, none⟩ files).trace ∧
      (createNewLowerQualityImage ext ⟨some "photos/cat.jpg", none, none⟩ files).response =
        some ⟨200, .text url⟩) := by
  have hsucc : ∀ (f url : String), f ≠ "" → AllStagesSucceed ext f →
      ext.getSignedUrl (newFilePath f) = some url →
      (createNewLowerQualityImage ext ⟨some f, none, none⟩ files).trace =
        [.mkdirp (tempLocalDir ext.tmpdir f), .download f (tempLocalFile ext.tmpdir f),
         .spawn "convert" (convert ext.tmpdir f (orDefault none 10) (orDefault none 100)),
         .upload (tempLocalThumbFile ext.tmpdir f) (newFilePath f),
         .unlinkSync (tempLocalFile ext.tmpdir f),
         .unlinkSync (tempLocalThumbFile ext.tmpdir f),
         .getSignedUrl (newFilePath f), .getSignedUrl f, .respond 200 (.text url)] :=
    fun f url hf hall hurl => trace_of_success ext ⟨some f, none, none⟩ files f url rfl hf hall hurl
  refine ⟨?_, ?_, ?_, ?_⟩
  · rw [← convert_default ext.tmpdir filename]
    obtain ⟨tmpdir, m, d, sp, u, u1, u2, g⟩ := ext
    simp only [createNewLowerQualityImage, hne, if_false]
    generalize convert tmpdir filename _ _ = conv
    generalize tempLocalDir tmpdir filename = dir
    generalize tempLocalFile tmpdir filename = tlf
    generalize tempLocalThumbFile tmpdir filename = thumb
    generalize g (newFilePath filename) = x
    generalize g filename = y
    generalize newFilePath filename = nfp
    intro command args hmem
    revert hmem
    cases m <;> cases d <;> cases sp <;> cases u <;> cases u1 <;> cases u2 <;>
      cases x <;> cases y <;> simp
  · rw [← convert_default ext.tmpdir filename]
    obtain ⟨tmpdir, m, d, sp, u, u1, u2, g⟩ := ext
    simp only [createNewLowerQualityImage, hne, if_false]
    generalize convert tmpdir filename _ _ = conv
    generalize tempLocalDir tmpdir filename = dir
    generalize tempLocalFile tmpdir filename = tlf
    generalize tempLocalThumbFile tmpdir filename = thumb
    generalize g (newFilePath filename) = x
    generalize g filename = y
    generalize newFilePath filename = nfp
    intro h1 h2
    subst h1 h2
    cases sp <;> cases u <;> cases u1 <;> cases u2 <;> cases x <;> cases y <;> simp
  · intro url hall hurl
    simp [Outcome.response, hsucc filename url hne hall hurl, List.findSome?]
  · intro url hall hurl
    have hnew : newFilePath "photos/cat.jpg" = "photos/cat.jpg_modified" := by decide
    have ht := hsucc "photos/cat.jpg" url (by decide) hall (by rw [hnew]; exact hurl)
    refine ⟨?_, ?_, ?_⟩
    · rw [ht, convert_default]; simp
    · rw [ht, hnew]; simp
    · simp [Outcome.response, ht, List.findSome?]

/-- C5 (witness): the request for `photos/cat.jpg` in a world where every call succeeds. -/
theorem defaults_when_absent_witness :
    ("photos/cat.jpg" ≠ "" ∧ sampleExternals.mkdirp = true ∧ sampleExternals.download = true ∧
      AllStagesSucceed sampleExternals "photos/cat.jpg") ∧
    Effect.spawn "convert"
        [.str "/tmp/photos/cat.jpg", .str "-quality", .num 10, .str "-scale", .str "100%",
         .str "-dither", .str "none", .str "-posterize", .str "100", .str "-strip",
         .str "/tmp/photos/cat.jpg_modified"]
      ∈ (createNewLowerQualityImage sampleExternals
          ⟨some "photos/cat.jpg", none, none⟩ []).trace ∧
    (createNewLowerQualityImage sampleExternals ⟨some "photos/cat.jpg", none, none⟩ []).response
      = some ⟨200, .text "https://storage.example/photos/cat.jpg_modified"⟩ :=
  ⟨by decide,
   (defaults_when_absent sampleExternals [] "photos/cat.jpg" (by decide)).2.1 rfl rfl,
   ((defaults_when_absent sampleExternals [] "photos/cat.jpg" (by decide)).2.2.2
      "https://storage.example/photos/cat.jpg_modified" (by decide) (by decide)).2.2⟩

/-- The array `convert` when `quality` and `scale` are supplied. -/
theorem convert_supplied (tmpdir filename q s : String) (hq : q ≠ "") (hs : s ≠ "") :
    convert tmpdir filename (orDefault (some q) 10) (orDefault (some s) 100) =
      [.str (join tmpdir filename), .str "-quality", .str q, .str "-scale",
       .str (s ++ "%"), .str "-dither", .str "none", .str "-posterize", .str "100",
       .str "-strip", .str (join tmpdir (newFilePath filename))] := by
  simp [convert, orDefault, hq, hs, JSValue.toStr, tempLocalFile, tempLocalThumbFile]

/-- C6: with a non-empty `filename` and supplied (non-empty) `quality` q and
`scale` s, the only command the handler ever spawns is `convert`, with exactly
the arguments local source path, `-quality`, q, `-scale`, s followed by `%`,
`-dither`, `none`, `-posterize`, `100`, `-strip`, local derivative path, where
the local paths are `join(tmpdir, filename)` and `join(tmpdir, newFilePath)`;
and it is spawned as soon as the directory is made and the source fetched. -/
theorem convert_argument_list (ext : Externals) (files : List String)
    (filename q s : String) (hne : filename ≠ "") (hq : q ≠ "") (hs : s ≠ "") :
    (∀ command args,
      Effect.spawn command args
          ∈ (createNewLowerQualityImage ext ⟨some filename, some q, some s⟩ files).trace →
        command = "convert" ∧
        args = [.str (join ext.tmpdir filename), .str "-quality", .str q, .str "-scale",
                .str (s ++ "%"), .str "-dither", .str "none", .str "-posterize", .str "100",
                .str "-strip", .str (join ext.tmpdir (newFilePath filename))]) ∧
    (ext.mkdirp = true → ext.download = true →
      Effect.spawn "convert"
          [.str (join ext.tmpdir filename), .str "-quality", .str q, .str "-scale",
           .str (s ++ "%"), .str "-dither", .str "none", .str "-posterize", .str "100",
           .str "-strip", .str (join ext.tmpdir (newFilePath filename))]
        ∈ (createNewLowerQualityImage ext ⟨some filename, some q, some s⟩ files).trace) := by
  rw [← convert_supplied ext.tmpdir filename q s hq hs]
  obtain ⟨tmpdir, m, d, sp, u, u1, u2, g⟩ := ext
  simp only [createNewLowerQualityImage, hne, if_false]
  generalize convert tmpdir filename _ _ = conv
  generalize tempLocalDir tmpdir filename = dir
  generalize tempLocalFile tmpdir filename = tlf
  generalize tempLocalThumbFile tmpdir filename = thumb
  generalize g (newFilePath filename) = x
  generalize g filename = y
  generalize newFilePath filename = nfp
  constructor
  · intro command args hmem
    revert hmem
    cases m <;> cases d <;> cases sp <;> cases u <;> cases u1 <;> cases u2 <;>
      cases x <;> cases y <;> simp
  · intro h1 h2
    subst h1 h2
    cases sp <;> cases u <;> cases u1 <;> cases u2 <;> cases x <;> cases y <;> simp

/-- C6 (witness): the request for `a/b.png` with quality 50 and scale 50. -/
theorem convert_argument_list_witness :
    ("a/b.png" ≠ "" ∧ "50" ≠ "" ∧ "50" ≠ "") ∧
    Effect.spawn "convert"
        [.str "/tmp/a/b.png", .str "-quality", .str "50", .str "-scale", .str "50%",
         .str "-dither", .str "none", .str "-posterize", .str "100", .str "-strip",
         .str "/tmp/a/b.png_modified"]
      ∈ (createNewLowerQualityImage sampleExternals
          ⟨some "a/b.png", some "50", some "50"⟩ []).trace :=
  ⟨by decide, (convert_argument_list sampleExternals [] "a/b.png" "50" "50"
    (by decide) (by decide) (by decide)).2 rfl rfl⟩

/-! ## The handler: the promise chain -/

/-- C10: when every stage succeeds the response has status 200 and its body is
the URL signed for the derivative object, the first element of the result of
`newFile.getSignedUrl`; the URL of the source object is requested as well, but
a different URL signed for the source is never what is sent. -/
theorem success_sends_derivative_url (ext : Externals) (req : Query) (files : List String)
    (filename url : String) (hreq : req.filename = some filename) (hne : filename ≠ "")
    (hall : AllStagesSucceed ext filename)
    (hurl : ext.getSignedUrl (newFilePath filename) = some url) :
    (createNewLowerQualityImage ext req files).response = some ⟨200, .text url⟩ ∧
    Effect.getSignedUrl (newFilePath filename) ∈ (createNewLowerQualityImage ext req files).trace ∧
    Effect.getSignedUrl filename ∈ (createNewLowerQualityImage ext req files).trace ∧
    ∀ v, ext.getSignedUrl filename = some v → v ≠ url →
      (createNewLowerQualityImage ext req files).response ≠ some ⟨200, .text v⟩ := by
  have ht := trace_of_success ext req files filename url hreq hne hall hurl
  have hr : (createNewLowerQualityImage ext req files).response = some ⟨200, .text url⟩ := by
    simp [Outcome.response, ht, List.findSome?]
  refine ⟨hr, by rw [ht]; simp, by rw [ht]; simp, ?_⟩
  intro v _ hv h
  rw [hr] at h
  simp only [Option.some.injEq, Response.mk.injEq, Body.text.injEq, true_and] at h
  exact hv h.symm

/-- C10 (witness): the request for `a/b.png` in a world where every call succeeds. -/
theorem success_sends_derivative_url_witness :
    ((⟨some "a/b.png", some "50", some "50"⟩ : Query).filename = some "a/b.png" ∧
      "a/b.png" ≠ "" ∧ AllStagesSucceed sampleExternals "a/b.png" ∧
      sampleExternals.getSignedUrl (newFilePath "a/b.png")
        = some "https://storage.example/a/b.png_modified") ∧
    (createNewLowerQualityImage sampleExternals ⟨some "a/b.png", some "50", some "50"⟩ []).response
      = some ⟨200, .text "https://storage.example/a/b.png_modified"⟩ :=
  ⟨by decide, (success_sends_derivative_url sampleExternals
    ⟨some "a/b.png", some "50", some "50"⟩ [] "a/b.png"
    "https://storage.example/a/b.png_modified" rfl (by decide) (by decide) (by decide)).1⟩

/-- C9 (counterexample): in the successful run for `photos/cat.jpg` both
staged files are unlinked before the first URL is signed, so signing does not
happen before cleanup. -/
theorem signing_not_before_cleanup :
    Effect.unlinkSync "/tmp/photos/cat.jpg"
      ∈ (createNewLowerQualityImage sampleExternals ⟨some "photos/cat.jpg", none, none⟩ []).trace ∧
    Effect.getSignedUrl "photos/cat.jpg_modified"
      ∈ (createNewLowerQualityImage sampleExternals ⟨some "photos/cat.jpg", none, none⟩ []).trace ∧
    ¬ ((createNewLowerQualityImage sampleExternals
          ⟨some "photos/cat.jpg", none, none⟩ []).trace.indexOf
            (Effect.getSignedUrl "photos/cat.jpg_modified") <
        (createNewLowerQualityImage sampleExternals
          ⟨some "photos/cat.jpg", none, none⟩ []).trace.indexOf
            (Effect.unlinkSync "/tmp/photos/cat.jpg")) := by
  decide

/-- C9 (amended): when every stage succeeds the effects are, in this order:
make the directory, fetch the source, run `convert`, upload the derivative,
unlink the staged source, unlink the staged derivative, request the signed
URL of the derivative and that of the source, send the response; each is
started only after the one before has completed, and cleanup comes before
signing. -/
theorem effects_in_order_on_success (ext : Externals) (req : Query) (files : List String)
    (filename url : String) (hreq : req.filename = some filename) (hne : filename ≠ "")
    (hall : AllStagesSucceed ext filename)
    (hurl : ext.getSignedUrl (newFilePath filename) = some url) :
    (createNewLowerQualityImage ext req files).trace =
      [.mkdirp (tempLocalDir ext.tmpdir filename),
       .download filename (tempLocalFile ext.tmpdir filename),
       .spawn "convert" (convert ext.tmpdir filename (orDefault req.quality 10)
          (orDefault req.scale 100)),
       .upload (tempLocalThumbFile ext.tmpdir filename) (newFilePath filename),
       .unlinkSync (tempLocalFile ext.tmpdir filename),
       .unlinkSync (tempLocalThumbFile ext.tmpdir filename),
       .getSignedUrl (newFilePath filename),
       .getSignedUrl filename,
       .respond 200 (.text url)] :=
  trace_of_success ext req files filename url hreq hne hall hurl

/-- C9 (witness): the request for `photos/cat.jpg` in a world where every call succeeds. -/
theorem effects_in_order_on_success_witness :
    ((⟨some "photos/cat.jpg", none, none⟩ : Query).filename = some "photos/cat.jpg" ∧
      "photos/cat.jpg" ≠ "" ∧ AllStagesSucceed sampleExternals "photos/cat.jpg" ∧
      sampleExternals.getSignedUrl (newFilePath "photos/cat.jpg")
        = some "https://storage.example/photos/cat.jpg_modified") ∧
    (createNewLowerQualityImage sampleExternals ⟨some "photos/cat.jpg", none, none⟩ []).trace =
      [.mkdirp (tempLocalDir sampleExternals.tmpdir "photos/cat.jpg"),
       .download "photos/cat.jpg" (tempLocalFile sampleExternals.tmpdir "photos/cat.jpg"),
       .spawn "convert" (convert sampleExternals.tmpdir "photos/cat.jpg"
          (orDefault (⟨some "photos/cat.jpg", none, none⟩ : Query).quality 10)
          (orDefault (⟨some "photos/cat.jpg", none, none⟩ : Query).scale 100)),
       .upload (tempLocalThumbFile sampleExternals.tmpdir "photos/cat.jpg")
          (newFilePath "photos/cat.jpg"),
       .unlinkSync (tempLocalFile sampleExternals.tmpdir "photos/cat.jpg"),
       .unlinkSync (tempLocalThumbFile sampleExternals.tmpdir "photos/cat.jpg"),
       .getSignedUrl (newFilePath "photos/cat.jpg"),
       .getSignedUrl "photos/cat.jpg",
       .respond 200 (.text "https://storage.example/photos/cat.jpg_modified")] :=
  ⟨by decide, effects_in_order_on_success sampleExternals ⟨some "photos/cat.jpg", none, none⟩ []
    "photos/cat.jpg" "https://storage.example/photos/cat.jpg_modified" rfl (by decide)
    (by decide) (by decide)⟩


/-- C3 (counterexample): `convert` fails after the source `a/b.png` has been
downloaded; nothing is unlinked and the staged source file is still there. -/
theorem staged_source_left_behind :
    (createNewLowerQualityImage convertFails ⟨some "a/b.png", some "50", some "50"⟩ []).trace =
      [.mkdirp "/tmp/a", .download "a/b.png" "/tmp/a/b.png",
       .spawn "convert"
         [.str "/tmp/a/b.png", .str "-quality", .str "50", .str "-scale", .str "50%",
          .str "-dither", .str "none", .str "-posterize", .str "100", .str "-strip",
          .str "/tmp/a/b.png_modified"]] ∧
    tempLocalFile convertFails.tmpdir "a/b.png"
      ∈ (createNewLowerQualityImage convertFails
          ⟨some "a/b.png", some "50", some "50"⟩ []).files := by
  decide

/-- C3 (amended): cleanup runs only on the success path.  When the directory
creation, the fetch, the transform and the upload all succeed and both
`unlinkSync` calls return, neither staged file remains, whether or not the
URLs are then signed.  When one of those four stages fails, `unlinkSync` is
never called and every file that was on the local file system is still
there; in particular a source that was downloaded stays behind when the
transform or the upload fails, and so does a derivative that was produced
when the upload fails. -/
theorem cleanup_only_after_upload (ext : Externals) (req : Query) (files : List String)
    (filename : String) (hreq : req.filename = some filename) (hne : filename ≠ "") :
    (ext.mkdirp = true ∧ ext.download = true ∧ ext.spawn = true ∧ ext.upload = true →
      Effect.unlinkSync (tempLocalFile ext.tmpdir filename)
        ∈ (createNewLowerQualityImage ext req files).trace ∧
      (ext.unlinkTempLocalFile = true → ext.unlinkTempLocalThumbFile = true →
        tempLocalFile ext.tmpdir filename ∉ (createNewLowerQualityImage ext req files).files ∧
        tempLocalThumbFile ext.tmpdir filename
          ∉ (createNewLowerQualityImage ext req files).files)) ∧
    (¬ (ext.mkdirp = true ∧ ext.download = true ∧ ext.spawn = true ∧ ext.upload = true) →
      (∀ path, Effect.unlinkSync path ∉ (createNewLowerQualityImage ext req files).trace) ∧
      ∀ file ∈ files, file ∈ (createNewLowerQualityImage ext req files).files) ∧
    (ext.mkdirp = true → ext.download = true →
      ¬ (ext.spawn = true ∧ ext.upload = true) →
      tempLocalFile ext.tmpdir filename ∈ (createNewLowerQualityImage ext req files).files) ∧
    (ext.mkdirp = true → ext.download = true → ext.spawn = true → ext.upload = false →
      tempLocalThumbFile ext.tmpdir filename
        ∈ (createNewLowerQualityImage ext req files).files) := by
  obtain ⟨tmpdir, m, d, sp, u, u1, u2, g⟩ := ext
  simp only [createNewLowerQualityImage, hreq, hne, if_false]
  generalize convert tmpdir filename _ _ = conv
  generalize tempLocalDir tmpdir filename = dir
  generalize tempLocalFile tmpdir filename = tlf
  generalize tempLocalThumbFile tmpdir filename = thumb
  generalize g (newFilePath filename) = x
  generalize g filename = y
  generalize newFilePath filename = nfp
  refine ⟨?_, ?_, ?_, ?_⟩
  · rintro ⟨h1, h2, h3, h4⟩
    subst h1 h2 h3 h4
    cases u1 <;> cases u2 <;> cases x <;> cases y <;> simp [List.mem_filter]
  · intro h
    cases m <;> cases d <;> cases sp <;> cases u <;> simp at h <;> simp
    all_goals intro file hfile; simp [hfile]
  · intro h1 h2 h
    subst h1 h2
    cases sp <;> cases u <;> simp at h <;> simp
  · intro h1 h2 h3 h4
    subst h1 h2 h3 h4
    simp

/-- C3 (witness): the request for `a/b.png` when `convert` fails: nothing is
unlinked and the downloaded source is still on the local file system. -/
theorem cleanup_only_after_upload_witness :
    ((⟨some "a/b.png", some "50", some "50"⟩ : Query).filename = some "a/b.png" ∧
      "a/b.png" ≠ "" ∧ convertFails.mkdirp = true ∧ convertFails.download = true ∧
      ¬ (convertFails.spawn = true ∧ convertFails.upload = true)) ∧
    (∀ path, Effect.unlinkSync path
      ∉ (createNewLowerQualityImage convertFails
          ⟨some "a/b.png", some "50", some "50"⟩ []).trace) ∧
    tempLocalFile convertFails.tmpdir "a/b.png"
      ∈ (createNewLowerQualityImage convertFails
          ⟨some "a/b.png", some "50", some "50"⟩ []).files :=
  ⟨by decide,
   ((cleanup_only_after_upload convertFails ⟨some "a/b.png", some "50", some "50"⟩ []
      "a/b.png" rfl (by decide)).2.1 (by decide)).1,
   (cleanup_only_after_upload convertFails ⟨some "a/b.png", some "50", some "50"⟩ []
      "a/b.png" rfl (by decide)).2.2.1 rfl rfl (by decide)⟩

/-- C4 (counterexample): the source `a/b.png` cannot be downloaded; the handler
sends no response at all, hence no response with a status other than 200. -/
theorem no_error_response_on_download_failure :
    ¬ ∃ r, (createNewLowerQualityImage downloadFails
        ⟨some "a/b.png", some "50", some "50"⟩ []).response = some r ∧ r.status ≠ 200 := by
  have h : (createNewLowerQualityImage downloadFails
      ⟨some "a/b.png", some "50", some "50"⟩ []).response = none := by decide
  rw [h]; simp

/-- C4 (amended): when the source object cannot be downloaded the chain stops
there: `convert` is not run, `bucket.upload` is never invoked, no URL is
signed, and the handler sends no response, neither 200 nor an error. -/
theorem download_failure_stops_chain (ext : Externals) (req : Query) (files : List String)
    (filename : String) (hreq : req.filename = some filename) (hne : filename ≠ "")
    (hdl : ext.download = false) :
    (createNewLowerQualityImage ext req files).response = none ∧
    (∀ localPath destination,
      Effect.upload localPath destination ∉ (createNewLowerQualityImage ext req files).trace) ∧
    (∀ command args,
      Effect.spawn command args ∉ (createNewLowerQualityImage ext req files).trace) ∧
    (∀ object, Effect.getSignedUrl object ∉ (createNewLowerQualityImage ext req files).trace) := by
  obtain ⟨tmpdir, m, d, sp, u, u1, u2, g⟩ := ext
  simp only at hdl
  subst hdl
  cases m <;> simp [createNewLowerQualityImage, hreq, hne, Outcome.response]

/-- C4 (witness): the request for `a/b.png` when the download fails. -/
theorem download_failure_stops_chain_witness :
    ((⟨some "a/b.png", some "50", some "50"⟩ : Query).filename = some "a/b.png" ∧
      "a/b.png" ≠ "" ∧ downloadFails.download = false) ∧
    (createNewLowerQualityImage downloadFails
      ⟨some "a/b.png", some "50", some "50"⟩ []).response = none :=
  ⟨by decide, (download_failure_stops_chain downloadFails ⟨some "a/b.png", some "50", some "50"⟩
    [] "a/b.png" rfl (by decide) rfl).1⟩


/-! ## The paths of the derivative and of the staged files -/

/-- C2 (counterexample): for `cat.jpg` the directory name is `.`, so the
concatenation is `./cat.jpg_modified`, while the handler computes
`cat.jpg_modified`. -/
theorem newFilePath_is_not_the_concatenation :
    dirname "cat.jpg" ++ "/" ++ basename "cat.jpg" ++ "_modified" = "./cat.jpg_modified" ∧
    newFilePath "cat.jpg" = "cat.jpg_modified" ∧
    newFilePath "cat.jpg" ≠ dirname "cat.jpg" ++ "/" ++ basename "cat.jpg" ++ "_modified" := by
  decide

/-- C2 (amended): the derivative path is the normalised form of
`dirname(filename) + "/" + basename(filename) + "_modified"`.  For a filename
made of plain segments it is `filename + "_modified"`: the concatenation
itself when the filename has a directory component, and
`basename(filename) + "_modified"`, without a leading `./`, when it has
none. -/
theorem newFilePath_is_normalized_concatenation (filename : String)
    (h : isPlainPath filename = true) :
    newFilePath filename =
      normalize (normalize (dirname filename ++ "/" ++ basename filename ++ "_modified")) ∧
    newFilePath filename = filename ++ "_modified" ∧
    newFilePath filename =
      (if dirname filename = "." then basename filename ++ "_modified"
       else dirname filename ++ "/" ++ basename filename ++ "_modified") := by
  refine ⟨newFilePath_eq_normalize filename, newFilePath_plain filename h, ?_⟩
  rw [newFilePath_plain filename h]
  have hd : ∀ l : List Char, dirname filename = ⟨l⟩ ↔ dirnameChars filename.data = l := by
    intro l
    unfold dirname
    exact ⟨fun hc => congrArg String.data hc, fun hc => congrArg String.mk hc⟩
  rcases dir_base_plain filename.data (plainSegs_segments _ h) with ⟨h1, h2⟩ | ⟨h1, h2⟩
  · have hdot : dirname filename = "." := (hd ['.']).mpr h1
    rw [if_pos hdot]
    congr 1
    apply String.ext
    simp [basename, h2]
  · have hdot : dirname filename ≠ "." := fun hc => h1 ((hd ['.']).mp hc)
    rw [if_neg hdot]
    congr 1
    apply String.ext
    simp only [dirname, basename, String.data_append]
    conv_lhs => rw [h2]
    simp

/-- C2 (witness): the filename `photos/cat.jpg`. -/
theorem newFilePath_is_normalized_concatenation_witness :
    isPlainPath "photos/cat.jpg" = true ∧
    newFilePath "photos/cat.jpg" = "photos/cat.jpg" ++ "_modified" :=
  ⟨by decide, (newFilePath_is_normalized_concatenation "photos/cat.jpg" (by decide)).2.1⟩

/-- Appending the same string on the right is injective. -/
theorem append_right_cancel (a b c : String) : a ++ c = b ++ c ↔ a = b := by
  constructor
  · intro h
    apply String.ext
    have := congrArg String.data h
    simpa using this
  · rintro rfl; rfl

/-- Appending to the same string on the left is injective. -/
theorem append_left_cancel (a b c : String) : a ++ b = a ++ c ↔ b = c := by
  constructor
  · intro h
    apply String.ext
    have := congrArg String.data h
    simpa using this
  · rintro rfl; rfl

/-- C7 (counterexample): the staged derivative of `a` is the staged source of
`a_modified`, and `a/b` and `a//b` are staged in the same two files. -/
theorem staged_files_collide :
    ¬ List.Disjoint [tempLocalFile "/tmp" "a", tempLocalThumbFile "/tmp" "a"]
        [tempLocalFile "/tmp" "a_modified", tempLocalThumbFile "/tmp" "a_modified"] ∧
    ¬ List.Disjoint [tempLocalFile "/tmp" "a/b", tempLocalThumbFile "/tmp" "a/b"]
        [tempLocalFile "/tmp" "a//b", tempLocalThumbFile "/tmp" "a//b"] := by
  constructor
  · intro h
    have h1 : tempLocalThumbFile "/tmp" "a"
        ∈ [tempLocalFile "/tmp" "a", tempLocalThumbFile "/tmp" "a"] := by simp
    have h2 : tempLocalThumbFile "/tmp" "a"
        ∈ [tempLocalFile "/tmp" "a_modified", tempLocalThumbFile "/tmp" "a_modified"] := by
      decide
    exact h h1 h2
  · intro h
    have h1 : tempLocalFile "/tmp" "a/b"
        ∈ [tempLocalFile "/tmp" "a/b", tempLocalThumbFile "/tmp" "a/b"] := by simp
    have h2 : tempLocalFile "/tmp" "a/b"
        ∈ [tempLocalFile "/tmp" "a//b", tempLocalThumbFile "/tmp" "a//b"] := by
      decide
    exact h h1 h2

/-- C7 (amended): with an absolute plain temporary directory and two different
filenames made of plain segments, the staged sources differ and the staged
derivatives differ; the two pairs of staged files are disjoint exactly when
neither filename is the other followed by `_modified`. -/
theorem staged_files_of_plain_paths (tmpdir f1 f2 : String)
    (ht : isAbsolutePlainPath tmpdir = true) (h1 : isPlainPath f1 = true)
    (h2 : isPlainPath f2 = true) (hne : f1 ≠ f2) :
    tempLocalFile tmpdir f1 ≠ tempLocalFile tmpdir f2 ∧
    tempLocalThumbFile tmpdir f1 ≠ tempLocalThumbFile tmpdir f2 ∧
    (List.Disjoint [tempLocalFile tmpdir f1, tempLocalThumbFile tmpdir f1]
        [tempLocalFile tmpdir f2, tempLocalThumbFile tmpdir f2] ↔
      f2 ≠ f1 ++ "_modified" ∧ f1 ≠ f2 ++ "_modified") := by
  rw [tempLocalFile_plain tmpdir f1 ht h1, tempLocalFile_plain tmpdir f2 ht h2,
    tempLocalThumbFile_plain tmpdir f1 ht h1, tempLocalThumbFile_plain tmpdir f2 ht h2]
  have e1 : tmpdir ++ "/" ++ f1 = tmpdir ++ "/" ++ f2 ↔ f1 = f2 := append_left_cancel _ _ _
  have e2 : tmpdir ++ "/" ++ f1 ++ "_modified" = tmpdir ++ "/" ++ f2 ++ "_modified" ↔ f1 = f2 := by
    rw [append_right_cancel]; exact e1
  have e3 : tmpdir ++ "/" ++ f1 = tmpdir ++ "/" ++ f2 ++ "_modified" ↔ f1 = f2 ++ "_modified" := by
    rw [String.append_assoc (tmpdir ++ "/") f2]; exact append_left_cancel _ _ _
  have e4 : tmpdir ++ "/" ++ f1 ++ "_modified" = tmpdir ++ "/" ++ f2 ↔ f2 = f1 ++ "_modified" := by
    rw [String.append_assoc (tmpdir ++ "/") f1, eq_comm (b := f1 ++ "_modified")]
    exact append_left_cancel _ _ _
  refine ⟨fun h => hne (e1.mp h), fun h => hne (e2.mp h), ?_⟩
  simp only [List.Disjoint, List.mem_cons, List.mem_singleton, List.not_mem_nil, or_false]
  constructor
  · intro h
    refine ⟨fun hc => ?_, fun hc => ?_⟩
    · exact h (Or.inr rfl) (Or.inl (e4.mpr hc))
    · exact h (Or.inl rfl) (Or.inr (e3.mpr hc))
  · rintro ⟨ha, hb⟩ x hx1 hx2
    rcases hx1 with rfl | rfl <;> rcases hx2 with hx | hx
    · exact hne (e1.mp hx)
    · exact hb (e3.mp hx)
    · exact ha (e4.mp hx)
    · exact hne (e2.mp hx)

/-- C7 (witness): the filenames `photos/cat.jpg` and `photos/dog.jpg` under `/tmp`. -/
theorem staged_files_of_plain_paths_witness :
    (isAbsolutePlainPath "/tmp" = true ∧ isPlainPath "photos/cat.jpg" = true ∧
      isPlainPath "photos/dog.jpg" = true ∧ "photos/cat.jpg" ≠ "photos/dog.jpg") ∧
    tempLocalFile "/tmp" "photos/cat.jpg" ≠ tempLocalFile "/tmp" "photos/dog.jpg" :=
  ⟨by decide, (staged_files_of_plain_paths "/tmp" "photos/cat.jpg" "photos/dog.jpg"
    (by decide) (by decide) (by decide) (by decide)).1⟩

/-- C8 (failing input): for the filename `a/.` the directory handed to `mkdirp`
is `/tmp`, while the derivative is staged as `/tmp/a/._modified`, in the
directory `/tmp/a`, which is never created (on the contrary, the source is
downloaded to the file `/tmp/a`). -/
theorem derivative_directory_not_created :
    tempLocalDir "/tmp" "a/." = "/tmp" ∧
    tempLocalFile "/tmp" "a/." = "/tmp/a" ∧
    tempLocalThumbFile "/tmp" "a/." = "/tmp/a/._modified" ∧
    dirname (tempLocalThumbFile "/tmp" "a/.") = "/tmp/a" ∧
    dirname (tempLocalThumbFile "/tmp" "a/.") ≠ tempLocalDir "/tmp" "a/." ∧
    (createNewLowerQualityImage sampleExternals ⟨some "a/.", none, none⟩ []).trace.take 3 =
      [.mkdirp "/tmp", .download "a/." "/tmp/a",
       .spawn "convert"
         [.str "/tmp/a", .str "-quality", .num 10, .str "-scale", .str "100%",
          .str "-dither", .str "none", .str "-posterize", .str "100", .str "-strip",
          .str "/tmp/a/._modified"]] := by
  decide


/-- Staging a plain path and staging it with a postfix happen in the same
directory. -/
theorem dirnameChars_staged (T p m : List Char) (hT : T ≠ []) (hT1 : T ≠ ['/'])
    (hp : PlainSegs (segments p)) (hm : '/' ∉ m) :
    dirnameChars (T ++ '/' :: (p ++ m)) = dirnameChars (T ++ '/' :: p) := by
  obtain ⟨hne, hall⟩ := hp
  have hjoin := joinSegs_segments p
  obtain ⟨init, b, hsb⟩ : ∃ init b, segments p = init ++ [b] :=
    ⟨_, _, (List.dropLast_append_getLast hne).symm⟩
  rw [hsb] at hall hjoin
  obtain ⟨hb, hbp⟩ := hall b (by simp)
  have hb0 := ((isPlainSegment_iff _).mp hbp).1
  have hbm : '/' ∉ b ++ m := by simp [hb, hm]
  have hbm0 : b ++ m ≠ [] := by simp [hb0]
  by_cases hi : init = []
  · have hp1 : p = b := by rw [← hjoin, hi]; rfl
    subst hp1
    rw [dirnameChars_last T _ hT hT1 hbm0 hbm, dirnameChars_last T _ hT hT1 hb0 hb]
  · have hp1 : p = joinSegs init ++ '/' :: b := by
      rw [← hjoin, joinSegs_append init [b] hi (by simp)]; rfl
    have e1 : T ++ '/' :: p = (T ++ '/' :: joinSegs init) ++ '/' :: b := by
      rw [hp1]; simp
    have e2 : T ++ '/' :: (p ++ m) = (T ++ '/' :: joinSegs init) ++ '/' :: (b ++ m) := by
      rw [hp1]; simp
    have hY : T ++ '/' :: joinSegs init ≠ [] := by simp
    have hY1 : T ++ '/' :: joinSegs init ≠ ['/'] := by
      intro h
      have := congrArg List.length h
      simp only [List.length_append, List.length_cons, List.length_nil] at this
      have : T.length = 0 := by omega
      exact hT (List.length_eq_zero.mp this)
    rw [e1, e2, dirnameChars_last _ _ hY hY1 hbm0 hbm, dirnameChars_last _ _ hY hY1 hb0 hb]

/-- On filenames made of plain segments the directory handed to `mkdirp` is the
directory of the staged derivative as well. -/
theorem staging_directory_of_plain_paths (tmpdir filename : String)
    (ht : isAbsolutePlainPath tmpdir = true) (h : isPlainPath filename = true) :
    dirname (tempLocalThumbFile tmpdir filename) = tempLocalDir tmpdir filename := by
  obtain ⟨t, ht1, ht2⟩ := tmpdir_data tmpdir ht
  have ht0 : t ≠ [] := by
    have := joinSegs_ne_nil _ ht2
    rwa [joinSegs_segments] at this
  have := dirnameChars_staged tmpdir.data filename.data newFilePostfix.data
    (by rw [ht1]; simp) (by rw [ht1]; simpa using ht0) (plainSegs_segments _ h) (by decide)
  rw [tempLocalDir, tempLocalThumbFile_plain tmpdir filename ht h,
    tempLocalFile_plain tmpdir filename ht h]
  apply String.ext
  simp only [dirname, String.data_append]
  rw [newFilePostfix_data] at this
  simpa using this

end ImageProcessor
